import Mathlib

/-!
Shallow embedding of the backtest computation engine of `src/app.py`
(systematic-equities-dashboard).  The panel is a list of rows, one per
(date, ticker) observation, in dataframe row order; `backtest` sorts the
frame by (date, ticker) before computing (app.py line 112), which the
theorems record through the `PanelSorted` hypothesis where row order
matters.  Prices and weights are modelled with `ℚ` (the float
computations of the source, taken exactly); a pandas NaN is `none` in
`Option ℚ`.  Column-wise operations become functions from a row index to
a value.
-/

set_option maxRecDepth 8000

/-- A row of the long-format price panel: one (date, ticker, close)
observation.  Dates and tickers are coded as naturals; `volume` is
never used by the engine and is omitted. -/
structure Row where
  date : ℕ
  ticker : ℕ
  close : ℚ
  deriving DecidableEq, Inhabited

/-- The row of the frame at position `i` (a defaulted lookup; all uses
are in bounds). -/
def rowAt (df : List Row) (i : ℕ) : Row := df.getD i default

/-- The close column at position `i`. -/
def closeAt (df : List Row) (i : ℕ) : ℚ := (rowAt df i).close

/-- Positions before `i` holding the same ticker as row `i`, in row
order: the prior observations of that ticker that a
`groupby("ticker").shift` walks back through. -/
def priorIdx (df : List Row) (i : ℕ) : List ℕ :=
  (List.range i).filter (fun j => (rowAt df j).ticker = (rowAt df i).ticker)

/-- `groupby("ticker")[col].shift(n)` evaluated at row `i` for the
column `v`: the value of `v` at the `n`-th prior observation of row
`i`'s ticker, `none` (NaN) when fewer than `n` prior observations
exist. -/
def groupShift (df : List Row) (v : ℕ → ℚ) (n i : ℕ) : Option ℚ :=
  if n = 0 then some (v i)
  else if n ≤ (priorIdx df i).length then
    some (v ((priorIdx df i).getD ((priorIdx df i).length - n) 0))
  else none

/-- `groupby("ticker")["close"].shift(n)` at row `i`. -/
def shiftClose (df : List Row) (n i : ℕ) : Option ℚ := groupShift df (closeAt df) n i

/-- `groupby("ticker")["close"].pct_change()` at row `i` (app.py line
115): NaN at a ticker's first observation. -/
def pct_change (df : List Row) (i : ℕ) : Option ℚ :=
  (shiftClose df 1 i).map (fun p => closeAt df i / p - 1)

/-- `compute_momentum_signal` (app.py lines 60-66):
`close.shift(gap) / close.shift(gap + mom_win) - 1` within each ticker,
NaN when either shift is NaN. -/
def compute_momentum_signal (df : List Row) (mom_win gap : ℕ) (i : ℕ) : Option ℚ :=
  match shiftClose df gap i, shiftClose df (gap + mom_win) i with
  | some a, some b => some (a / b - 1)
  | _, _ => none

/-- Positions of the rows whose date is `d`: one date's cross-section. -/
def dateIdx (df : List Row) (d : ℕ) : List ℕ :=
  (List.range df.length).filter (fun j => (rowAt df j).date = d)

/-- The cross-section of date `d` after `dropna(subset=["sig"])`
(app.py line 73): positions with a non-NaN signal, in row order. -/
def elig (df : List Row) (sig : ℕ → Option ℚ) (d : ℕ) : List ℕ :=
  (dateIdx df d).filter (fun j => (sig j).isSome)

/-- The signal value used as sort key (total on eligible rows, where it
is never `none`). -/
def sigVal (sig : ℕ → Option ℚ) (j : ℕ) : ℚ := (sig j).getD 0

/-- Insert into a list sorted ascending by the key `v`. -/
def insertLe (v : ℕ → ℚ) (x : ℕ) : List ℕ → List ℕ
  | [] => [x]
  | y :: ys => if v x ≤ v y then x :: y :: ys else y :: insertLe v x ys

/-- `sort_values("sig")` (app.py line 78): sort ascending by the key
`v` (insertion sort; ties keep a definite order). -/
def sortLe (v : ℕ → ℚ) : List ℕ → List ℕ
  | [] => []
  | x :: xs => insertLe v x (sortLe v xs)

/-- `k = max(1, int(math.floor(n * quantile)))` (app.py line 77). -/
def kOf (n : ℕ) (q : ℚ) : ℕ := (max 1 (Int.floor ((n : ℚ) * q))).toNat

/-- The date-`d` cross-section sorted ascending by signal. -/
def sortedElig (df : List Row) (sig : ℕ → Option ℚ) (d : ℕ) : List ℕ :=
  sortLe (sigVal sig) (elig df sig d)

/-- `shorts = g.iloc[:k]` (app.py line 79): the lowest `k` signals. -/
def shortsOf (df : List Row) (sig : ℕ → Option ℚ) (d : ℕ) (q : ℚ) : List ℕ :=
  (sortedElig df sig d).take (kOf (elig df sig d).length q)

/-- `longs = g.iloc[-k:]` (app.py line 80): the highest `k` signals. -/
def longsOf (df : List Row) (sig : ℕ → Option ℚ) (d : ℕ) (q : ℚ) : List ℕ :=
  (sortedElig df sig d).drop ((sortedElig df sig d).length - kOf (elig df sig d).length q)

/-- The bucket assignment of `per_date` (app.py lines 81-85): zero
when the cross-section has no eligible name or the row is in neither
bucket; longs are written first and shorts second, so a row in both
buckets keeps the short value. -/
def make_weights_base (df : List Row) (sig : ℕ → Option ℚ) (q : ℚ) (i : ℕ) : ℚ :=
  if elig df sig (rowAt df i).date = [] then 0
  else if i ∈ shortsOf df sig (rowAt df i).date q then
    -1 / ((shortsOf df sig (rowAt df i).date q).length : ℚ)
  else if i ∈ longsOf df sig (rowAt df i).date q then
    1 / ((longsOf df sig (rowAt df i).date q).length : ℚ)
  else 0

/-- `w.clip(lower=-max_pos, upper=max_pos)` (app.py line 87). -/
def make_weights_clipped (df : List Row) (sig : ℕ → Option ℚ) (q mp : ℚ) (i : ℕ) : ℚ :=
  min mp (max (-mp) (make_weights_base df sig q i))

/-- `pos = w[w > 0].sum()` over date `d`'s cross-section (app.py line 89). -/
def posSum (df : List Row) (sig : ℕ → Option ℚ) (q mp : ℚ) (d : ℕ) : ℚ :=
  (((dateIdx df d).map (make_weights_clipped df sig q mp)).filter (fun x => 0 < x)).sum

/-- `neg = -w[w < 0].sum()` over date `d`'s cross-section (app.py line 90). -/
def negSum (df : List Row) (sig : ℕ → Option ℚ) (q mp : ℚ) (d : ℕ) : ℚ :=
  -((((dateIdx df d).map (make_weights_clipped df sig q mp)).filter (fun x => x < 0)).sum)

/-- `make_weights` (app.py lines 68-97) evaluated at row `i`: bucket
assignment, per-name clip, then the renormalization of lines 89-94
exactly as written, including the `* -0.5` factor applied to the
negative side. -/
def make_weights (df : List Row) (sig : ℕ → Option ℚ) (q mp : ℚ) (i : ℕ) : ℚ :=
  if 0 < make_weights_clipped df sig q mp i then
    make_weights_clipped df sig q mp i /
      (if 0 < posSum df sig q mp (rowAt df i).date then posSum df sig q mp (rowAt df i).date
       else 1) * (1 / 2)
  else if make_weights_clipped df sig q mp i < 0 then
    make_weights_clipped df sig q mp i /
      (if 0 < negSum df sig q mp (rowAt df i).date then negSum df sig q mp (rowAt df i).date
       else 1) * (-(1 / 2))
  else 0

/-- The `w` column of `backtest` (app.py line 119-120). -/
def w_col (df : List Row) (mom_win gap : ℕ) (q mp : ℚ) (i : ℕ) : ℚ :=
  make_weights df (compute_momentum_signal df mom_win gap) q mp i

/-- `w_lag = groupby("ticker")["w"].shift(1).fillna(0.0)` (app.py line
123): yesterday's weight, zero at a ticker's first observation. -/
def w_lag (df : List Row) (mom_win gap : ℕ) (q mp : ℚ) (i : ℕ) : ℚ :=
  (groupShift df (w_col df mom_win gap q mp) 1 i).getD 0

/-- `turn_by_date` (app.py lines 126-127): per-date sum of
`|w - w_lag|`, clipped below at zero. -/
def turn_by_date (df : List Row) (mom_win gap : ℕ) (q mp : ℚ) (d : ℕ) : ℚ :=
  max 0 (((dateIdx df d).map
    (fun i => |w_col df mom_win gap q mp i - w_lag df mom_win gap q mp i|)).sum)

/-- `daily_ret` (app.py line 130): per-date sum of `w_lag * ret` with
NaN returns counted as zero. -/
def daily_ret (df : List Row) (mom_win gap : ℕ) (q mp : ℚ) (d : ℕ) : ℚ :=
  ((dateIdx df d).map
    (fun i => w_lag df mom_win gap q mp i * (pct_change df i).getD 0)).sum

/-- `daily_pnl = daily_ret - (tc_bps / 10000) * turnover` (app.py
lines 132-133). -/
def daily_pnl (df : List Row) (mom_win gap : ℕ) (q mp tc : ℚ) (d : ℕ) : ℚ :=
  daily_ret df mom_win gap q mp d - tc / 10000 * turn_by_date df mom_win gap q mp d

/-- The distinct dates of the frame.  `groupby("date")` iterates them
in ascending order; on a (date, ticker)-sorted frame that is exactly
first-appearance order, so deduplication of the date column models it. -/
def datesOf (df : List Row) : List ℕ := (df.map Row.date).dedup

/-- The per-date P&L series of the run, in date order. -/
def pnl_list (df : List Row) (mom_win gap : ℕ) (q mp tc : ℚ) : List ℚ :=
  (datesOf df).map (daily_pnl df mom_win gap q mp tc)

/-- Cumulative products with running accumulator `a`. -/
def cumprodAux (a : ℚ) : List ℚ → List ℚ
  | [] => []
  | x :: xs => (a * x) :: cumprodAux (a * x) xs

/-- `equity = (1 + daily_pnl).cumprod()` (app.py line 135), seeded at
`1.0` before the first date. -/
def equity_list (df : List Row) (mom_win gap : ℕ) (q mp tc : ℚ) : List ℚ :=
  cumprodAux 1 ((pnl_list df mom_win gap q mp tc).map (fun p => 1 + p))

/-- The per-date turnover series of the run. -/
def turn_list (df : List Row) (mom_win gap : ℕ) (q mp : ℚ) : List ℚ :=
  (datesOf df).map (turn_by_date df mom_win gap q mp)

/-- The frame is sorted by (date, ticker) with no duplicate keys: the
state produced by app.py line 112 on a well-formed panel. -/
def PanelSorted (df : List Row) : Prop :=
  List.Pairwise (fun a b => a.date < b.date ∨ (a.date = b.date ∧ a.ticker < b.ticker)) df

instance (df : List Row) : Decidable (PanelSorted df) := by
  unfold PanelSorted; infer_instance

/-- The position of the observation `n` steps back in row `i`'s own
ticker history: row `i` itself for `n = 0`, otherwise the `n`-th most
recent prior observation of the same ticker (`none` when fewer than `n`
prior observations exist).  This is the specification-side reading of
"shift by N observations". -/
def nthBack (df : List Row) (i n : ℕ) : Option ℕ :=
  if n = 0 then some i else (priorIdx df i).reverse[n - 1]?

/-- The weight of row `i`'s ticker at its previous observation, zero
when row `i` is the ticker's first observation: the specification-side
reading of the implicit prior weight used by turnover. -/
def prevObsWeight (df : List Row) (mom_win gap : ℕ) (q mp : ℚ) (i : ℕ) : ℚ :=
  match (priorIdx df i).getLast? with
  | some j => w_col df mom_win gap q mp j
  | none => 0

/-- `daily_pnl.mean()` (population mean; zero on an empty series,
matching the guarded uses in app.py lines 139-144). -/
def qmean (l : List ℚ) : ℚ := l.sum / (l.length : ℚ)

/-- Population variance of a series (`std(ddof=0)` squared). -/
def qvarP (l : List ℚ) : ℚ := (l.map (fun x => (x - qmean l) ^ 2)).sum / (l.length : ℚ)

/-- `daily_pnl.std(ddof=0)`: the population standard deviation, as an
exact real. -/
noncomputable def popStd (l : List ℚ) : ℝ := Real.sqrt ((qvarP l : ℚ) : ℝ)

/-- `sharpe` (app.py line 141): mean over population stddev, annualized,
guarded to `0` when the stddev is not above `1e-12`. -/
noncomputable def sharpeOf (pnl : List ℚ) : ℝ :=
  if (1e-12 : ℝ) < popStd pnl then ((qmean pnl : ℚ) : ℝ) / popStd pnl * Real.sqrt 252
  else 0

/-- `vol` (app.py line 140): annualized population stddev, `0` when the
series has at most one point. -/
noncomputable def volOf (pnl : List ℚ) : ℝ :=
  if 1 < pnl.length then popStd pnl * Real.sqrt 252 else 0

/-- `cagr` (app.py line 139): `equity[-1] ** (252 / n) - 1`, `0` on an
empty series. -/
noncomputable def cagrOf (equity : List ℚ) : ℝ :=
  if 0 < equity.length then
    ((equity.getLastD 0 : ℚ) : ℝ) ^ ((252 : ℝ) / (equity.length : ℝ)) - 1
  else 0

/-- Running maxima with accumulator `a`. -/
def cummaxAux (a : ℚ) : List ℚ → List ℚ
  | [] => []
  | x :: xs => (max a x) :: cummaxAux (max a x) xs

/-- `equity.cummax()` (app.py line 142). -/
def cummax : List ℚ → List ℚ
  | [] => []
  | x :: xs => x :: cummaxAux x xs

/-- `max_dd = (equity / equity.cummax() - 1).min()` (app.py line 142),
`0` on an empty series. -/
def maxDDOf (equity : List ℚ) : ℚ :=
  if equity = [] then 0
  else (((equity.zip (cummax equity)).map (fun p => p.1 / p.2 - 1)).min?).getD 0

/-- `avg_turn = turn_by_date.mean()` (app.py line 143), `0` on an empty
series. -/
def avgTurnOf (turns : List ℚ) : ℚ := if turns = [] then 0 else qmean turns

/-- `hit_rate = (daily_pnl > 0).mean()` (app.py line 144), `0` on an
empty series. -/
def hitRateOf (pnl : List ℚ) : ℚ :=
  if pnl = [] then 0 else ((pnl.filter (fun x => 0 < x)).length : ℚ) / (pnl.length : ℚ)

/-- A constant-price panel: two tickers over two dates, close `100`
throughout, sorted by (date, ticker). -/
def panelConst : List Row := [⟨0, 0, 100⟩, ⟨0, 1, 100⟩, ⟨1, 0, 100⟩, ⟨1, 1, 100⟩]

/-- A two-ticker panel over two dates where ticker 0 rises 10% and
ticker 1 falls 10% on the second date, sorted by (date, ticker). -/
def panelUpDown : List Row := [⟨0, 0, 100⟩, ⟨0, 1, 100⟩, ⟨1, 0, 110⟩, ⟨1, 1, 90⟩]

/-- A single-ticker panel over two dates with a 10% move. -/
def panelSingle : List Row := [⟨0, 0, 100⟩, ⟨1, 0, 110⟩]

/-! ### Basic lemmas about the embedding -/

theorem mem_insertLe (v : ℕ → ℚ) (a x : ℕ) (l : List ℕ) :
    x ∈ insertLe v a l ↔ x = a ∨ x ∈ l := by
  induction l with
  | nil => simp [insertLe]
  | cons y ys ih =>
    unfold insertLe
    by_cases h : v a ≤ v y
    · simp only [if_pos h, List.mem_cons]
    · simp only [if_neg h, List.mem_cons, ih]
      tauto

theorem mem_sortLe (v : ℕ → ℚ) (x : ℕ) (l : List ℕ) : x ∈ sortLe v l ↔ x ∈ l := by
  induction l with
  | nil => simp [sortLe]
  | cons y ys ih => simp [sortLe, mem_insertLe, ih, List.mem_cons]

theorem mem_priorIdx {df : List Row} {i j : ℕ} :
    j ∈ priorIdx df i ↔ j < i ∧ (rowAt df j).ticker = (rowAt df i).ticker := by
  simp [priorIdx, List.mem_filter, List.mem_range]

theorem mem_dateIdx {df : List Row} {d j : ℕ} :
    j ∈ dateIdx df d ↔ j < df.length ∧ (rowAt df j).date = d := by
  simp [dateIdx, List.mem_filter, List.mem_range]

theorem mem_elig {df : List Row} {sig : ℕ → Option ℚ} {d j : ℕ} :
    j ∈ elig df sig d ↔ j ∈ dateIdx df d ∧ (sig j).isSome = true := by
  simp [elig, List.mem_filter]

theorem shortsOf_subset_elig {df : List Row} {sig : ℕ → Option ℚ} {d : ℕ} {q : ℚ} {i : ℕ}
    (h : i ∈ shortsOf df sig d q) : i ∈ elig df sig d := by
  unfold shortsOf sortedElig at h
  exact (mem_sortLe _ _ _).mp (List.mem_of_mem_take h)

theorem longsOf_subset_elig {df : List Row} {sig : ℕ → Option ℚ} {d : ℕ} {q : ℚ} {i : ℕ}
    (h : i ∈ longsOf df sig d q) : i ∈ elig df sig d := by
  unfold longsOf sortedElig at h
  exact (mem_sortLe _ _ _).mp (List.mem_of_mem_drop h)

theorem list_sum_nonpos {l : List ℚ} (h : ∀ y ∈ l, y ≤ 0) : l.sum ≤ 0 := by
  induction l with
  | nil => simp
  | cons a t ih =>
    simp only [List.sum_cons]
    have h1 := h a (List.mem_cons_self a t)
    have h2 := ih (fun y hy => h y (List.mem_cons_of_mem _ hy))
    linarith

theorem list_sum_le_of_mem_nonpos {l : List ℚ} {x : ℚ} (hx : x ∈ l) (h : ∀ y ∈ l, y ≤ 0) :
    l.sum ≤ x := by
  induction l with
  | nil => cases hx
  | cons a t ih =>
    simp only [List.sum_cons]
    rcases List.mem_cons.mp hx with rfl | hxt
    · have := list_sum_nonpos (fun y hy => h y (List.mem_cons_of_mem _ hy))
      linarith
    · have h1 := h a (List.mem_cons_self a t)
      have h2 := ih hxt (fun y hy => h y (List.mem_cons_of_mem _ hy))
      linarith

theorem make_weights_base_of_none {df : List Row} {sig : ℕ → Option ℚ} {q : ℚ} {i : ℕ}
    (h : sig i = none) : make_weights_base df sig q i = 0 := by
  unfold make_weights_base
  by_cases he : elig df sig (rowAt df i).date = []
  · rw [if_pos he]
  · have hs : i ∉ shortsOf df sig (rowAt df i).date q := by
      intro hmem
      have := (mem_elig.mp (shortsOf_subset_elig hmem)).2
      rw [h] at this
      cases this
    have hl : i ∉ longsOf df sig (rowAt df i).date q := by
      intro hmem
      have := (mem_elig.mp (longsOf_subset_elig hmem)).2
      rw [h] at this
      cases this
    rw [if_neg he, if_neg hs, if_neg hl]

theorem make_weights_clipped_of_none {df : List Row} {sig : ℕ → Option ℚ} {q mp : ℚ} {i : ℕ}
    (h : sig i = none) (hmp : 0 ≤ mp) : make_weights_clipped df sig q mp i = 0 := by
  unfold make_weights_clipped
  rw [make_weights_base_of_none h, max_eq_right (neg_nonpos.mpr hmp), min_eq_right hmp]

theorem make_weights_of_clipped_zero {df : List Row} {sig : ℕ → Option ℚ} {q mp : ℚ} {i : ℕ}
    (h : make_weights_clipped df sig q mp i = 0) : make_weights df sig q mp i = 0 := by
  unfold make_weights
  rw [h]
  norm_num

/-- C5: with the panel and all other parameters fixed, raising the cost
parameter `tc_bps` can only lower (never raise) any date's `daily_pnl`,
because turnover is nonnegative and enters the P&L as
`- tc_bps / 10000 * turnover`. -/
theorem daily_pnl_antitone_tc (df : List Row) (mom_win gap : ℕ) (q mp tc1 tc2 : ℚ) (d : ℕ)
    (h : tc1 ≤ tc2) :
    daily_pnl df mom_win gap q mp tc2 d ≤ daily_pnl df mom_win gap q mp tc1 d := by
  unfold daily_pnl
  have ht : 0 ≤ turn_by_date df mom_win gap q mp d := le_max_left 0 _
  have hmul : tc1 / 10000 * turn_by_date df mom_win gap q mp d ≤
      tc2 / 10000 * turn_by_date df mom_win gap q mp d :=
    mul_le_mul_of_nonneg_right (by linarith) ht
  linarith

/-- C10: every final weight produced by `make_weights` lies in
`[-1/2, 1/2]`: each rescaled weight is its clipped value divided by the
total clipped mass of its own side, times one half, and that ratio has
magnitude at most one. -/
theorem final_weight_bounded (df : List Row) (sig : ℕ → Option ℚ) (q mp : ℚ) (i : ℕ)
    (hq1 : 0 < q) (hq2 : q ≤ 1 / 2) (hmp : 0 < mp) (hi : i < df.length) :
    |make_weights df sig q mp i| ≤ 1 / 2 := by
  unfold make_weights
  by_cases h1 : 0 < make_weights_clipped df sig q mp i
  · rw [if_pos h1]
    have hmem : make_weights_clipped df sig q mp i ∈
        (dateIdx df (rowAt df i).date).map (make_weights_clipped df sig q mp) :=
      List.mem_map_of_mem _ (mem_dateIdx.mpr ⟨hi, rfl⟩)
    have hmemf : make_weights_clipped df sig q mp i ∈
        ((dateIdx df (rowAt df i).date).map (make_weights_clipped df sig q mp)).filter
          (fun y => 0 < y) :=
      List.mem_filter.mpr ⟨hmem, by simpa using h1⟩
    have hle : make_weights_clipped df sig q mp i ≤ posSum df sig q mp (rowAt df i).date := by
      unfold posSum
      refine List.single_le_sum (fun y hy => ?_) _ hmemf
      have := (List.mem_filter.mp hy).2
      simp only [decide_eq_true_eq] at this
      linarith
    have hpos : 0 < posSum df sig q mp (rowAt df i).date := lt_of_lt_of_le h1 hle
    rw [if_pos hpos]
    have hdiv1 : make_weights_clipped df sig q mp i / posSum df sig q mp (rowAt df i).date ≤ 1 :=
      (div_le_one hpos).mpr hle
    have hdiv0 : 0 ≤ make_weights_clipped df sig q mp i / posSum df sig q mp (rowAt df i).date :=
      div_nonneg h1.le hpos.le
    rw [abs_of_nonneg (mul_nonneg hdiv0 (by norm_num))]
    calc make_weights_clipped df sig q mp i / posSum df sig q mp (rowAt df i).date * (1 / 2)
        ≤ 1 * (1 / 2) := mul_le_mul_of_nonneg_right hdiv1 (by norm_num)
      _ = 1 / 2 := one_mul _
  · rw [if_neg h1]
    by_cases h2 : make_weights_clipped df sig q mp i < 0
    · rw [if_pos h2]
      have hmem : make_weights_clipped df sig q mp i ∈
          (dateIdx df (rowAt df i).date).map (make_weights_clipped df sig q mp) :=
        List.mem_map_of_mem _ (mem_dateIdx.mpr ⟨hi, rfl⟩)
      have hmemf : make_weights_clipped df sig q mp i ∈
          ((dateIdx df (rowAt df i).date).map (make_weights_clipped df sig q mp)).filter
            (fun y => y < 0) :=
        List.mem_filter.mpr ⟨hmem, by simpa using h2⟩
      have hsumle : (((dateIdx df (rowAt df i).date).map
          (make_weights_clipped df sig q mp)).filter (fun y => y < 0)).sum ≤
          make_weights_clipped df sig q mp i := by
        refine list_sum_le_of_mem_nonpos hmemf (fun y hy => ?_)
        have := (List.mem_filter.mp hy).2
        simp only [decide_eq_true_eq] at this
        linarith
      have hneg : -make_weights_clipped df sig q mp i ≤ negSum df sig q mp (rowAt df i).date := by
        unfold negSum
        linarith
      have hnegpos : 0 < negSum df sig q mp (rowAt df i).date :=
        lt_of_lt_of_le (neg_pos.mpr h2) hneg
      rw [if_pos hnegpos]
      have hval : make_weights_clipped df sig q mp i / negSum df sig q mp (rowAt df i).date *
          (-(1 / 2)) =
          (-make_weights_clipped df sig q mp i) / negSum df sig q mp (rowAt df i).date *
          (1 / 2) := by
        ring
      rw [hval]
      have hd1 : (-make_weights_clipped df sig q mp i) / negSum df sig q mp (rowAt df i).date ≤
          1 := (div_le_one hnegpos).mpr hneg
      have hd0 : 0 ≤ (-make_weights_clipped df sig q mp i) /
          negSum df sig q mp (rowAt df i).date :=
        div_nonneg (neg_nonneg.mpr h2.le) hnegpos.le
      rw [abs_of_nonneg (mul_nonneg hd0 (by norm_num))]
      calc (-make_weights_clipped df sig q mp i) / negSum df sig q mp (rowAt df i).date * (1 / 2)
          ≤ 1 * (1 / 2) := mul_le_mul_of_nonneg_right hd1 (by norm_num)
        _ = 1 / 2 := one_mul _
    · rw [if_neg h2]
      norm_num

/-! ### Shift lemmas -/

theorem groupShift_eq_nthBack (df : List Row) (v : ℕ → ℚ) (n i : ℕ) :
    groupShift df v n i = (nthBack df i n).map v := by
  unfold groupShift nthBack
  by_cases hn : n = 0
  · simp [hn]
  · rw [if_neg hn, if_neg hn]
    by_cases hle : n ≤ (priorIdx df i).length
    · have h1 : n - 1 < (priorIdx df i).reverse.length := by
        rw [List.length_reverse]
        omega
      have h2 : n - 1 < (priorIdx df i).length := by omega
      rw [if_pos hle, List.getElem?_reverse h2]
      have h3 : (priorIdx df i).length - 1 - (n - 1) = (priorIdx df i).length - n := by omega
      have h4 : (priorIdx df i).length - n < (priorIdx df i).length := by omega
      rw [h3, List.getElem?_eq_getElem h4, List.getD_eq_getElem _ _ h4]
      rfl
    · have h1 : (priorIdx df i).reverse.length ≤ n - 1 := by
        rw [List.length_reverse]
        omega
      rw [if_neg hle, List.getElem?_eq_none h1]
      rfl

theorem nthBack_isSome_of_le {df : List Row} {i n : ℕ} (h : n ≤ (priorIdx df i).length) :
    ∃ a, nthBack df i n = some a := by
  unfold nthBack
  by_cases hn : n = 0
  · exact ⟨i, by rw [if_pos hn]⟩
  · have h1 : n - 1 < (priorIdx df i).reverse.length := by
      rw [List.length_reverse]
      omega
    rw [if_neg hn, List.getElem?_eq_getElem h1]
    exact ⟨_, rfl⟩

theorem groupShift_eq_none_of_lt {df : List Row} {v : ℕ → ℚ} {n i : ℕ} (hn : n ≠ 0)
    (h : (priorIdx df i).length < n) : groupShift df v n i = none := by
  unfold groupShift
  rw [if_neg hn, if_neg (by omega)]

/-- C4: the momentum signal at any row equals
`close(t - gap) / close(t - gap - mom_win) - 1`, where `t - n` is the
`n`-th prior observation of that row's own ticker in row order; when the
row has fewer than `gap + mom_win` prior observations of its ticker the
signal is NaN (`none`), never zero. -/
theorem momentum_signal_spec (df : List Row) (mom_win gap i : ℕ)
    (hmw : 1 ≤ mom_win) (hi : i < df.length) :
    ((priorIdx df i).length < gap + mom_win →
      compute_momentum_signal df mom_win gap i = none) ∧
    (gap + mom_win ≤ (priorIdx df i).length →
      ∃ a b, nthBack df i gap = some a ∧ nthBack df i (gap + mom_win) = some b ∧
        compute_momentum_signal df mom_win gap i =
          some (closeAt df a / closeAt df b - 1)) := by
  constructor
  · intro hlt
    have h2 : shiftClose df (gap + mom_win) i = none :=
      groupShift_eq_none_of_lt (by omega) hlt
    unfold compute_momentum_signal
    rw [h2]
    cases shiftClose df gap i <;> rfl
  · intro hle
    obtain ⟨a, ha⟩ := @nthBack_isSome_of_le df i gap (by omega)
    obtain ⟨b, hb⟩ := @nthBack_isSome_of_le df i (gap + mom_win) hle
    refine ⟨a, b, ha, hb, ?_⟩
    unfold compute_momentum_signal shiftClose
    rw [groupShift_eq_nthBack, groupShift_eq_nthBack, ha, hb]
    rfl

/-- C7: a ticker whose signal is NaN on a date receives weight zero on
that date, and a date on which every ticker's signal is NaN has an
all-zero weight vector. -/
theorem nan_signal_zero_weight (df : List Row) (sig : ℕ → Option ℚ) (q mp : ℚ) (d i : ℕ)
    (hmp : 0 < mp) :
    (sig i = none → make_weights df sig q mp i = 0) ∧
    ((∀ j ∈ dateIdx df d, sig j = none) →
      ∀ j ∈ dateIdx df d, make_weights df sig q mp j = 0) := by
  constructor
  · intro h
    exact make_weights_of_clipped_zero (make_weights_clipped_of_none h hmp.le)
  · intro hall j hj
    exact make_weights_of_clipped_zero (make_weights_clipped_of_none (hall j hj) hmp.le)

/-! ### Turnover lemmas -/

theorem w_lag_eq_prevObsWeight (df : List Row) (mom_win gap : ℕ) (q mp : ℚ) (i : ℕ) :
    w_lag df mom_win gap q mp i = prevObsWeight df mom_win gap q mp i := by
  unfold w_lag prevObsWeight
  rw [groupShift_eq_nthBack]
  unfold nthBack
  rw [if_neg one_ne_zero]
  have h0 : (1 : ℕ) - 1 = 0 := rfl
  rw [h0, ← List.head?_eq_getElem?, List.head?_reverse]
  cases (priorIdx df i).getLast? <;> rfl

theorem turn_sum_nonneg (df : List Row) (mom_win gap : ℕ) (q mp : ℚ) (d : ℕ) :
    0 ≤ ((dateIdx df d).map
      (fun i => |w_col df mom_win gap q mp i - w_lag df mom_win gap q mp i|)).sum := by
  apply List.sum_nonneg
  intro x hx
  obtain ⟨i, _, rfl⟩ := List.mem_map.mp hx
  exact abs_nonneg _

theorem tickersAt_nodup (df : List Row) (d : ℕ) (hs : PanelSorted df) :
    ((df.filter (fun r => r.date = d)).map Row.ticker).Nodup := by
  have h1 : (df.filter (fun r => r.date = d)).Pairwise
      (fun a b => a.date < b.date ∨ (a.date = b.date ∧ a.ticker < b.ticker)) :=
    List.Pairwise.sublist (List.filter_sublist df) hs
  have h2 : ∀ r ∈ df.filter (fun r => r.date = d), r.date = d := by
    intro r hr
    have := (List.mem_filter.mp hr).2
    simpa using this
  have h3 : (df.filter (fun r => r.date = d)).Pairwise
      (fun a b => a.ticker ≠ b.ticker) := by
    refine List.Pairwise.imp_of_mem ?_ h1
    intro a b ha hb hr
    rcases hr with h | ⟨_, ht⟩
    · have hda := h2 a ha
      have hdb := h2 b hb
      omega
    · exact Nat.ne_of_lt ht
  unfold List.Nodup
  exact List.pairwise_map.mpr h3

/-- C6: per-date turnover is nonnegative, and it equals the sum over the
date's rows of the absolute difference between the row's weight and the
weight at that ticker's previous observation (implicitly zero at a
ticker's first observation); under a sorted panel with unique keys each
row of a date is a distinct ticker. -/
theorem turnover_nonneg_and_spec (df : List Row) (mom_win gap : ℕ) (q mp : ℚ) (d : ℕ)
    (hs : PanelSorted df) :
    0 ≤ turn_by_date df mom_win gap q mp d ∧
    turn_by_date df mom_win gap q mp d =
      ((dateIdx df d).map
        (fun i => |w_col df mom_win gap q mp i - prevObsWeight df mom_win gap q mp i|)).sum ∧
    ((df.filter (fun r => r.date = d)).map Row.ticker).Nodup := by
  refine ⟨le_max_left 0 _, ?_, tickersAt_nodup df d hs⟩
  unfold turn_by_date
  rw [max_eq_right (turn_sum_nonneg df mom_win gap q mp d)]
  have hfun : (fun i => |w_col df mom_win gap q mp i - w_lag df mom_win gap q mp i|) =
      (fun i => |w_col df mom_win gap q mp i - prevObsWeight df mom_win gap q mp i|) :=
    funext (fun i => by rw [w_lag_eq_prevObsWeight])
  rw [hfun]

/-! ### First-date lemmas -/

theorem head?_eq_of_mem_of_forall_le {l : List ℕ} {a : ℕ} (hp : l.Pairwise (· ≤ ·))
    (ha : a ∈ l) (hall : ∀ x ∈ l, a ≤ x) : l.head? = some a := by
  cases l with
  | nil => cases ha
  | cons h t =>
    rcases List.mem_cons.mp ha with rfl | hat
    · rfl
    · have h1 : h ≤ a := (List.pairwise_cons.mp hp).1 a hat
      have h2 : a ≤ h := hall h (List.mem_cons_self h t)
      simp [le_antisymm h1 h2]

theorem head?_dedup_sorted {l : List ℕ} (hp : l.Pairwise (· ≤ ·)) :
    l.dedup.head? = l.head? := by
  cases l with
  | nil => rfl
  | cons a t =>
    by_cases ha : a ∈ t
    · rw [List.dedup_cons_of_mem ha]
      have hd : t.dedup.Pairwise (· ≤ ·) :=
        List.Pairwise.sublist (List.dedup_sublist t) (List.pairwise_cons.mp hp).2
      have ham : a ∈ t.dedup := List.mem_dedup.mpr ha
      have hall : ∀ x ∈ t.dedup, a ≤ x :=
        fun x hx => (List.pairwise_cons.mp hp).1 x (List.mem_dedup.mp hx)
      rw [head?_eq_of_mem_of_forall_le hd ham hall]
      rfl
    · rw [List.dedup_cons_of_not_mem ha]
      rfl

theorem dates_pairwise_le {df : List Row} (hs : PanelSorted df) :
    (df.map Row.date).Pairwise (· ≤ ·) := by
  rw [List.pairwise_map]
  refine hs.imp ?_
  intro a b h
  rcases h with h | ⟨h, _⟩
  · exact le_of_lt h
  · exact le_of_eq h

theorem panelSorted_rel {df : List Row} (hs : PanelSorted df) {j i : ℕ} (hj : j < i)
    (hi : i < df.length) :
    (rowAt df j).date < (rowAt df i).date ∨
      ((rowAt df j).date = (rowAt df i).date ∧ (rowAt df j).ticker < (rowAt df i).ticker) := by
  have hj' : j < df.length := lt_trans hj hi
  have h := List.pairwise_iff_getElem.mp hs j i hj' hi hj
  unfold rowAt
  rwa [List.getD_eq_getElem _ _ hj', List.getD_eq_getElem _ _ hi]

theorem priorIdx_eq_nil_first_date {df : List Row} (hs : PanelSorted df) {i : ℕ}
    (hi : i < df.length) (hd : (rowAt df i).date = (rowAt df 0).date) :
    priorIdx df i = [] := by
  unfold priorIdx
  rw [List.filter_eq_nil_iff]
  intro j hj
  have hji : j < i := List.mem_range.mp hj
  have hj' : j < df.length := lt_trans hji hi
  simp only [decide_eq_true_eq]
  intro heq
  rcases panelSorted_rel hs hji hi with h | ⟨_, ht⟩
  · have h0 : (rowAt df 0).date ≤ (rowAt df j).date := by
      rcases Nat.eq_zero_or_pos j with rfl | hj0
      · exact le_refl _
      · rcases panelSorted_rel hs hj0 hj' with h' | ⟨h', _⟩
        · exact le_of_lt h'
        · exact le_of_eq h'
    omega
  · exact absurd heq (Nat.ne_of_lt ht)

theorem w_lag_zero_of_nil {df : List Row} {mom_win gap : ℕ} {q mp : ℚ} {i : ℕ}
    (h : priorIdx df i = []) : w_lag df mom_win gap q mp i = 0 := by
  unfold w_lag
  rw [groupShift_eq_none_of_lt one_ne_zero (by rw [h]; simp)]
  rfl

theorem momentum_none_of_nil {df : List Row} {mom_win gap i : ℕ} (hmw : 1 ≤ mom_win)
    (h : priorIdx df i = []) : compute_momentum_signal df mom_win gap i = none := by
  have h2 : shiftClose df (gap + mom_win) i = none := by
    apply groupShift_eq_none_of_lt (by omega)
    rw [h]
    simp
    omega
  unfold compute_momentum_signal
  rw [h2]
  cases shiftClose df gap i <;> rfl

/-- C3: on a nonempty sorted panel with `mom_win ≥ 1` the first emitted
equity value is exactly `1`: every row of the first date is its ticker's
first observation, so all signals are NaN, all weights and lagged
weights are zero, the first date's turnover and P&L vanish, and the
first cumulative product is `1 * (1 + 0)`. -/
theorem equity_starts_at_one (df : List Row) (mom_win gap : ℕ) (q mp tc : ℚ)
    (hs : PanelSorted df) (hne : df ≠ []) (hmw : 1 ≤ mom_win)
    (hq1 : 0 < q) (hq2 : q ≤ 1 / 2) (hmp : 0 < mp) (htc : 0 ≤ tc) :
    (equity_list df mom_win gap q mp tc).head? = some 1 := by
  have hhead : (datesOf df).head? = some (rowAt df 0).date := by
    unfold datesOf
    rw [head?_dedup_sorted (dates_pairwise_le hs)]
    cases df with
    | nil => exact absurd rfl hne
    | cons r t => simp [rowAt]
  have hpnl : daily_pnl df mom_win gap q mp tc (rowAt df 0).date = 0 := by
    have hz : ∀ i ∈ dateIdx df (rowAt df 0).date, priorIdx df i = [] := by
      intro i hi
      obtain ⟨hlen, hdate⟩ := mem_dateIdx.mp hi
      exact priorIdx_eq_nil_first_date hs hlen hdate
    have hwlag : ∀ i ∈ dateIdx df (rowAt df 0).date, w_lag df mom_win gap q mp i = 0 :=
      fun i hi => w_lag_zero_of_nil (hz i hi)
    have hw : ∀ i ∈ dateIdx df (rowAt df 0).date, w_col df mom_win gap q mp i = 0 := by
      intro i hi
      unfold w_col
      exact (nan_signal_zero_weight df _ q mp (rowAt df 0).date i hmp).1
        (momentum_none_of_nil hmw (hz i hi))
    have hdr : daily_ret df mom_win gap q mp (rowAt df 0).date = 0 := by
      unfold daily_ret
      apply List.sum_eq_zero
      intro x hx
      obtain ⟨i, hi, rfl⟩ := List.mem_map.mp hx
      rw [hwlag i hi, zero_mul]
    have hturn : turn_by_date df mom_win gap q mp (rowAt df 0).date = 0 := by
      unfold turn_by_date
      have hsum : ((dateIdx df (rowAt df 0).date).map
          (fun i => |w_col df mom_win gap q mp i - w_lag df mom_win gap q mp i|)).sum = 0 := by
        apply List.sum_eq_zero
        intro x hx
        obtain ⟨i, hi, rfl⟩ := List.mem_map.mp hx
        rw [hw i hi, hwlag i hi]
        simp
      rw [hsum, max_self]
    unfold daily_pnl
    rw [hdr, hturn, mul_zero, sub_zero]
  obtain ⟨rest, hrest⟩ : ∃ rest, datesOf df = (rowAt df 0).date :: rest := by
    cases hdf : datesOf df with
    | nil => rw [hdf] at hhead; cases hhead
    | cons a t =>
      rw [hdf] at hhead
      simp only [List.head?_cons, Option.some.injEq] at hhead
      exact ⟨t, by rw [hhead]⟩
  unfold equity_list pnl_list
  rw [hrest]
  simp only [List.map_cons, cumprodAux]
  rw [hpnl]
  norm_num

/-! ### Constant-price lemmas -/

theorem pct_change_zero_of_const {df : List Row}
    (hconst : ∀ i < df.length, ∀ j < df.length,
      (rowAt df i).ticker = (rowAt df j).ticker → (rowAt df i).close = (rowAt df j).close)
    (hnz : ∀ i < df.length, (rowAt df i).close ≠ 0) {i : ℕ} (hi : i < df.length) :
    (pct_change df i).getD 0 = 0 := by
  unfold pct_change shiftClose
  rw [groupShift_eq_nthBack]
  unfold nthBack
  rw [if_neg one_ne_zero]
  cases hj : (priorIdx df i).reverse[(1 : ℕ) - 1]? with
  | none => rfl
  | some j =>
    have hmem : j ∈ priorIdx df i :=
      List.mem_reverse.mp (List.getElem?_mem hj)
    obtain ⟨hji, hts⟩ := mem_priorIdx.mp hmem
    have hj' : j < df.length := lt_trans hji hi
    have hc : (rowAt df j).close = (rowAt df i).close := hconst j hj' i hi hts
    show closeAt df i / closeAt df j - 1 = 0
    unfold closeAt
    rw [hc, div_self (hnz i hi)]
    ring

theorem cumprodAux_all_one (l : List ℚ) (h : ∀ x ∈ l, x = 1) :
    ∀ e ∈ cumprodAux 1 l, e = 1 := by
  induction l with
  | nil => intro e he; cases he
  | cons x xs ih =>
    intro e he
    rw [cumprodAux] at he
    rw [h x (List.mem_cons_self x xs), mul_one] at he
    rcases List.mem_cons.mp he with rfl | he'
    · rfl
    · exact ih (fun y hy => h y (List.mem_cons_of_mem _ hy)) e he'

/-- C1 (amended): on a panel whose close prices are constant per ticker
at a nonzero value, every return is `0` or NaN, so the daily raw return
vanishes; with `tc_bps = 0` the cost term also vanishes, hence
`daily_pnl` is `0` on every simulated date and the equity series is
identically `1`.  (With `tc_bps > 0` this fails: weights are still
formed from the all-zero signals, so turnover and hence cost are
strictly positive on some date.) -/
theorem constant_prices_zero_cost_flat (df : List Row) (mom_win gap : ℕ) (q mp : ℚ)
    (hconst : ∀ i < df.length, ∀ j < df.length,
      (rowAt df i).ticker = (rowAt df j).ticker → (rowAt df i).close = (rowAt df j).close)
    (hnz : ∀ i < df.length, (rowAt df i).close ≠ 0)
    (hmw : 1 ≤ mom_win) (hq1 : 0 < q) (hq2 : q ≤ 1 / 2) (hmp : 0 < mp) :
    (∀ d ∈ datesOf df, daily_pnl df mom_win gap q mp 0 d = 0) ∧
    (∀ e ∈ equity_list df mom_win gap q mp 0, e = 1) := by
  have hpnl : ∀ d, daily_pnl df mom_win gap q mp 0 d = 0 := by
    intro d
    unfold daily_pnl
    have hdr : daily_ret df mom_win gap q mp d = 0 := by
      unfold daily_ret
      apply List.sum_eq_zero
      intro x hx
      obtain ⟨i, hi, rfl⟩ := List.mem_map.mp hx
      rw [pct_change_zero_of_const hconst hnz (mem_dateIdx.mp hi).1, mul_zero]
    rw [hdr]
    norm_num
  refine ⟨fun d _ => hpnl d, ?_⟩
  unfold equity_list
  intro e he
  refine cumprodAux_all_one _ ?_ e he
  intro x hx
  obtain ⟨p, hp, rfl⟩ := List.mem_map.mp hx
  unfold pnl_list at hp
  obtain ⟨d, hd, rfl⟩ := List.mem_map.mp hp
  rw [hpnl d]
  norm_num

/-- C8: metrics degrade to zero rather than raising: on an empty date
range all six metrics are `0`, and whenever the population standard
deviation of the P&L series is not above `1e-12` the Sharpe ratio is `0`
instead of a quotient. -/
theorem metrics_empty_and_sharpe_guard (df : List Row) (mom_win gap : ℕ) (q mp tc : ℚ)
    (l : List ℚ) (hdf : datesOf df = []) (hl : popStd l ≤ 1e-12) :
    cagrOf (equity_list df mom_win gap q mp tc) = 0 ∧
    volOf (pnl_list df mom_win gap q mp tc) = 0 ∧
    sharpeOf (pnl_list df mom_win gap q mp tc) = 0 ∧
    maxDDOf (equity_list df mom_win gap q mp tc) = 0 ∧
    avgTurnOf (turn_list df mom_win gap q mp) = 0 ∧
    hitRateOf (pnl_list df mom_win gap q mp tc) = 0 ∧
    sharpeOf l = 0 := by
  have hp : pnl_list df mom_win gap q mp tc = [] := by
    unfold pnl_list
    rw [hdf]
    rfl
  have he : equity_list df mom_win gap q mp tc = [] := by
    unfold equity_list
    rw [hp]
    rfl
  have ht : turn_list df mom_win gap q mp = [] := by
    unfold turn_list
    rw [hdf]
    rfl
  have hstd0 : popStd ([] : List ℚ) = 0 := by
    unfold popStd qvarP
    norm_num
  refine ⟨?_, ?_, ?_, ?_, ?_, ?_, ?_⟩
  · rw [he]
    unfold cagrOf
    norm_num
  · rw [hp]
    unfold volOf
    norm_num
  · rw [hp]
    unfold sharpeOf
    rw [hstd0, if_neg (by norm_num)]
  · rw [he]
    unfold maxDDOf
    norm_num
  · rw [ht]
    unfold avgTurnOf
    norm_num
  · rw [hp]
    unfold hitRateOf
    norm_num
  · unfold sharpeOf
    rw [if_neg (not_lt.mpr hl)]

/-! ### Concrete evaluations -/

attribute [local semireducible] Rat.add Rat.sub Rat.mul Rat.inv in
/-- C1 counterexample: a constant-price panel run with `tc_bps = 10000`
(all other parameters in their documented ranges) has `daily_pnl = -1`
on its second simulated date and an equity series `[1, 0]`, because the
all-zero signals still generate positions and the positive turnover is
charged; so the claim's conclusion (`daily_pnl ≡ 0` and `equity ≡ 1`
for every `tc_bps ≥ 0`) is false as stated. -/
theorem constant_prices_claim_false :
    (∀ i < panelConst.length, ∀ j < panelConst.length,
      (rowAt panelConst i).ticker = (rowAt panelConst j).ticker →
        (rowAt panelConst i).close = (rowAt panelConst j).close) ∧
    (0 : ℚ) < 1 / 2 ∧ (1 : ℚ) / 2 ≤ 1 / 2 ∧ (0 : ℚ) < 1 ∧ (0 : ℚ) ≤ 10000 ∧
    1 ∈ datesOf panelConst ∧
    daily_pnl panelConst 1 0 (1 / 2) 1 10000 1 = -1 ∧
    daily_pnl panelConst 1 0 (1 / 2) 1 10000 1 ≠ 0 ∧
    equity_list panelConst 1 0 (1 / 2) 1 10000 = [1, 0] := by decide

attribute [local semireducible] Rat.add Rat.sub Rat.mul Rat.inv in
/-- C2: on a date with one long and one short (clipped weights `1/50`
and `-1/50`), the renormalization of app.py lines 93-94 rescales the
positive side to sum `+1/2` but multiplies the negative side by `-0.5`,
flipping its sign: both final weights are `+1/2`, the cross-sectional
sum is `+1` rather than `0`, and no negative weight remains, contrary
to the dollar-neutral intent stated in the code's own comments. -/
theorem renorm_flips_short_side :
    compute_momentum_signal panelUpDown 1 0 2 = some (1 / 10) ∧
    compute_momentum_signal panelUpDown 1 0 3 = some (-(1 / 10)) ∧
    make_weights_clipped panelUpDown (compute_momentum_signal panelUpDown 1 0)
      (1 / 5) (1 / 50) 2 = 1 / 50 ∧
    make_weights_clipped panelUpDown (compute_momentum_signal panelUpDown 1 0)
      (1 / 5) (1 / 50) 3 = -(1 / 50) ∧
    make_weights panelUpDown (compute_momentum_signal panelUpDown 1 0)
      (1 / 5) (1 / 50) 2 = 1 / 2 ∧
    make_weights panelUpDown (compute_momentum_signal panelUpDown 1 0)
      (1 / 5) (1 / 50) 3 = 1 / 2 ∧
    make_weights panelUpDown (compute_momentum_signal panelUpDown 1 0)
      (1 / 5) (1 / 50) 2 +
      make_weights panelUpDown (compute_momentum_signal panelUpDown 1 0)
        (1 / 5) (1 / 50) 3 = 1 := by decide

attribute [local semireducible] Rat.add Rat.sub Rat.mul Rat.inv in
/-- C9: a date whose cross-section is a single eligible ticker computes
`k = 1`, places the sole row in both buckets, and keeps the short
assignment (`-1`) written last; weight construction does not fail, but
the sign-flipping renormalization then makes the final weight `+1/2`,
not the negative value the claim predicts. -/
theorem single_ticker_weight_positive :
    elig panelSingle (compute_momentum_signal panelSingle 1 0) 1 = [1] ∧
    kOf 1 (1 / 5) = 1 ∧
    shortsOf panelSingle (compute_momentum_signal panelSingle 1 0) 1 (1 / 5) = [1] ∧
    longsOf panelSingle (compute_momentum_signal panelSingle 1 0) 1 (1 / 5) = [1] ∧
    make_weights_base panelSingle (compute_momentum_signal panelSingle 1 0) (1 / 5) 1 = -1 ∧
    make_weights panelSingle (compute_momentum_signal panelSingle 1 0)
      (1 / 5) (1 / 50) 1 = 1 / 2 := by decide

/-! ### Witnesses -/

attribute [local semireducible] Rat.add Rat.sub Rat.mul Rat.inv in
/-- Witness for the amended C1 theorem at the constant panel with
`tc_bps = 0`. -/
theorem constant_prices_zero_cost_flat_witness :
    (∀ d ∈ datesOf panelConst, daily_pnl panelConst 1 0 (1 / 2) 1 0 d = 0) ∧
    (∀ e ∈ equity_list panelConst 1 0 (1 / 2) 1 0, e = 1) :=
  constant_prices_zero_cost_flat panelConst 1 0 (1 / 2) 1
    (by decide) (by decide) (by decide) (by decide) (by decide) (by decide)

attribute [local semireducible] Rat.add Rat.sub Rat.mul Rat.inv in
/-- Witness for the C3 theorem at the single-ticker panel. -/
theorem equity_starts_at_one_witness :
    (equity_list panelSingle 1 0 (1 / 5) (1 / 50) 10).head? = some 1 :=
  equity_starts_at_one panelSingle 1 0 (1 / 5) (1 / 50) 10
    (by decide) (by decide) (by decide) (by decide) (by decide) (by decide) (by decide)

attribute [local semireducible] Rat.add Rat.sub Rat.mul Rat.inv in
/-- Witness for the C4 theorem at the single-ticker panel's second row. -/
theorem momentum_signal_spec_witness :
    ((priorIdx panelSingle 1).length < 0 + 1 →
      compute_momentum_signal panelSingle 1 0 1 = none) ∧
    (0 + 1 ≤ (priorIdx panelSingle 1).length →
      ∃ a b, nthBack panelSingle 1 0 = some a ∧ nthBack panelSingle 1 (0 + 1) = some b ∧
        compute_momentum_signal panelSingle 1 0 1 =
          some (closeAt panelSingle a / closeAt panelSingle b - 1)) :=
  momentum_signal_spec panelSingle 1 0 1 (by decide) (by decide)

/-- Witness for the C5 theorem: raising `tc_bps` from `0` to `10000`
does not raise the constant panel's second-date P&L. -/
theorem daily_pnl_antitone_tc_witness :
    daily_pnl panelConst 1 0 (1 / 2) 1 10000 1 ≤ daily_pnl panelConst 1 0 (1 / 2) 1 0 1 :=
  daily_pnl_antitone_tc panelConst 1 0 (1 / 2) 1 0 10000 1 (by norm_num)

attribute [local semireducible] Rat.add Rat.sub Rat.mul Rat.inv in
/-- Witness for the C6 theorem at the up-down panel's second date. -/
theorem turnover_nonneg_and_spec_witness :
    0 ≤ turn_by_date panelUpDown 1 0 (1 / 5) (1 / 50) 1 ∧
    turn_by_date panelUpDown 1 0 (1 / 5) (1 / 50) 1 =
      ((dateIdx panelUpDown 1).map
        (fun i => |w_col panelUpDown 1 0 (1 / 5) (1 / 50) i -
          prevObsWeight panelUpDown 1 0 (1 / 5) (1 / 50) i|)).sum ∧
    ((panelUpDown.filter (fun r => r.date = 1)).map Row.ticker).Nodup :=
  turnover_nonneg_and_spec panelUpDown 1 0 (1 / 5) (1 / 50) 1 (by decide)

/-- Witness for the C7 theorem at the single-ticker panel's first date,
whose signal is NaN. -/
theorem nan_signal_zero_weight_witness :
    (compute_momentum_signal panelSingle 1 0 0 = none →
      make_weights panelSingle (compute_momentum_signal panelSingle 1 0)
        (1 / 5) (1 / 50) 0 = 0) ∧
    ((∀ j ∈ dateIdx panelSingle 0, compute_momentum_signal panelSingle 1 0 j = none) →
      ∀ j ∈ dateIdx panelSingle 0,
        make_weights panelSingle (compute_momentum_signal panelSingle 1 0)
          (1 / 5) (1 / 50) j = 0) :=
  nan_signal_zero_weight panelSingle (compute_momentum_signal panelSingle 1 0)
    (1 / 5) (1 / 50) 0 0 (by norm_num)

/-- Witness for the C8 theorem at the empty panel and a zero-variance
P&L series. -/
theorem metrics_empty_and_sharpe_guard_witness :
    cagrOf (equity_list [] 1 0 (1 / 5) (1 / 50) 10) = 0 ∧
    volOf (pnl_list [] 1 0 (1 / 5) (1 / 50) 10) = 0 ∧
    sharpeOf (pnl_list [] 1 0 (1 / 5) (1 / 50) 10) = 0 ∧
    maxDDOf (equity_list [] 1 0 (1 / 5) (1 / 50) 10) = 0 ∧
    avgTurnOf (turn_list [] 1 0 (1 / 5) (1 / 50)) = 0 ∧
    hitRateOf (pnl_list [] 1 0 (1 / 5) (1 / 50) 10) = 0 ∧
    sharpeOf [0] = 0 :=
  metrics_empty_and_sharpe_guard [] 1 0 (1 / 5) (1 / 50) 10 [0] rfl
    (by
      unfold popStd
      rw [show qvarP [0] = 0 from by norm_num [qvarP, qmean], Rat.cast_zero, Real.sqrt_zero]
      norm_num)

attribute [local semireducible] Rat.add Rat.sub Rat.mul Rat.inv in
/-- Witness for the C10 theorem at the up-down panel's long row. -/
theorem final_weight_bounded_witness :
    |make_weights panelUpDown (compute_momentum_signal panelUpDown 1 0) (1 / 5) (1 / 50) 2| ≤
      1 / 2 :=
  final_weight_bounded panelUpDown (compute_momentum_signal panelUpDown 1 0) (1 / 5) (1 / 50) 2
    (by norm_num) (by norm_num) (by norm_num) (by decide)
